import Mathlib

/-!
Verification of `src/sh/generate-icons.py`.

The script converts one source image into six square PNG icons
(sizes 16, 32, 48, 64, 128, 256), scaling the source to fit while
keeping its aspect ratio and padding the rest of the square canvas
with transparency.

The embedding below follows the Python source line by line:

* Python `int` arithmetic is `ℤ` / `ℕ` (Python integers are unbounded).
* Python `float` arithmetic is IEEE-754 binary64, modelled exactly:
  a float value is a rational number, and every float-producing
  operation rounds its exact rational result to 53 significant bits
  with round-to-nearest, ties-to-even (`roundQ`).  The exponent is not
  bounded in the model; this is exact for every value the script can
  produce from real images (PIL dimensions fit in a C `int`, far below
  the overflow/subnormal thresholds).
  - CPython `int / int` returns the correctly rounded double of the
    exact quotient, so `a / b` is `roundQ (mkRat a b)`.
  - CPython `int * float` first converts the int to a double
    (`roundQ`), then multiplies with one more rounding.
  - Python `int(x)` on a float truncates toward zero (`pytrunc`).
  - Python `min` on floats picks the smaller value.
* A decoded raster image is a width, a height and a pixel grid with
  red/green/blue/alpha channels (the script converts everything to
  RGBA before processing).
* Pillow primitives used by the script are modelled from their
  documented behaviour: `Image.resize` raises `ValueError`
  ("height and width must be > 0") when a requested dimension is
  below 1, and is otherwise a resampling whose pixel content is an
  arbitrary kernel parameter (the script uses LANCZOS; no claim
  depends on the filter).  `Image.new` fills with the given colour.
  `paste` with an RGBA mask blends inside the pasted box using the
  mask's alpha band and leaves every pixel outside the box unchanged.
* The filesystem is a state record: a set of directories, the
  readable source files (possibly undecodable), and the written
  output files.  `os.makedirs(..., exist_ok=True)` adds a directory
  without failing when it exists; `save` upserts a file.
-/

/-! ### Exact binary64 arithmetic over ℚ -/

/-- Number of binary digits of `n`, computed with structural fuel so that
the kernel can evaluate it.  `natBitsAux fuel n` is the bit length of `n`
provided `n ≤ fuel`. -/
def natBitsAux : ℕ → ℕ → ℕ
  | 0, _ => 0
  | fuel + 1, n => if n = 0 then 0 else natBitsAux fuel (n / 2) + 1

/-- Bit length of a natural number: `0` for `0`, and the unique `b` with
`2 ^ (b - 1) ≤ n < 2 ^ b` for `n ≥ 1`. -/
def natBits (n : ℕ) : ℕ := natBitsAux n n

/-- The dyadic rational `2 ^ e`, written without `zpow` so that the kernel
can evaluate it. -/
def pow2 (e : ℤ) : ℚ :=
  match e with
  | .ofNat n => mkRat (2 ^ n) 1
  | .negSucc n => mkRat 1 (2 ^ (n + 1))

/-- Binary exponent of a positive rational: the unique `e` with
`2 ^ e ≤ x < 2 ^ (e + 1)`. -/
def qexp (x : ℚ) : ℤ :=
  let a : ℤ := (natBits x.num.toNat : ℤ) - (natBits x.den : ℤ)
  if pow2 a ≤ x then a else a - 1

/-- Round a rational to the nearest integer, ties to even. -/
def nearestEven (y : ℚ) : ℤ :=
  let f := Int.ediv y.num y.den
  let rem := Int.emod y.num y.den
  if 2 * rem < (y.den : ℤ) then f
  else if (y.den : ℤ) < 2 * rem then f + 1
  else if f % 2 = 0 then f else f + 1

/-- Kernel-evaluable product of two rationals (the `Mul ℚ` instance is
sealed against unfolding, so we recompute it through `mkRat`). -/
def qmul (a b : ℚ) : ℚ := mkRat (a.num * b.num) (a.den * b.den)

/-- Kernel-evaluable negation of a rational. -/
def qneg (a : ℚ) : ℚ := mkRat (-a.num) a.den

/-- Kernel-evaluable cast of an integer into ℚ. -/
def intToQ (n : ℤ) : ℚ := mkRat n 1

/-- Kernel-evaluable cast of a natural number into ℚ. -/
def natToQ (n : ℕ) : ℚ := mkRat n 1

/-- Round a positive rational to 53 significant bits,
round-to-nearest, ties-to-even. -/
def roundPos (x : ℚ) : ℚ :=
  let e := qexp x
  qmul (intToQ (nearestEven (qmul x (pow2 (52 - e))))) (pow2 (e - 52))

/-- Round an exact rational value to the nearest IEEE-754 binary64 value
(unbounded exponent).  This is the rounding CPython applies to every
float-producing operation. -/
def roundQ (x : ℚ) : ℚ :=
  if x = 0 then 0
  else if x < 0 then qneg (roundPos (qneg x))
  else roundPos x

/-- Python `int(x)` on a float: truncation toward zero. -/
def pytrunc (q : ℚ) : ℤ := Int.tdiv q.num q.den

/-- CPython `int / int` true division: the correctly rounded double of the
exact quotient (`longobject.c: long_true_divide`). -/
def pydiv (a : ℤ) (b : ℕ) : ℚ := roundQ (mkRat a b)

/-- CPython `int * float`: the int is converted to a double, then the
product is rounded once more. -/
def pymulIntFloat (a : ℕ) (x : ℚ) : ℚ := roundQ (qmul (roundQ (natToQ a)) x)

/-! ### The image and filesystem model -/

/-- One RGBA pixel. -/
structure Pixel where
  r : ℕ
  g : ℕ
  b : ℕ
  a : ℕ
deriving DecidableEq

/-- A decoded raster image: dimensions plus a pixel grid, addressed as
`pix x y` like PIL's `getpixel((x, y))`. -/
structure PImage where
  width : ℕ
  height : ℕ
  pix : ℕ → ℕ → Pixel

/-- A resampling filter: given the source image and the requested target
dimensions, produces the resampled pixel grid.  The script passes
`Image.Resampling.LANCZOS`; the claims are independent of the filter, so
it is a parameter of the embedding. -/
def ResampleK : Type := PImage → ℕ → ℕ → ℕ → ℕ → Pixel

/-- Errors the script can hit inside `resize_with_padding`, plus
`invalidConfiguration`.  `valueError` is Pillow's
"height and width must be > 0" from `Image.resize`;
`zeroDivisionError` is Python's division by a zero image dimension.
`invalidConfiguration` is modelled from the spec: the spec's error
taxonomy posits a distinct defensive error for a non-positive target
size; the constructor exists so that statements about it can be made,
and no code path produces it. -/
inductive PILError where
  | valueError
  | zeroDivisionError
  | invalidConfiguration
deriving DecidableEq

/-- Pillow's `MULDIV255` rounding step used by `paste` blending. -/
def muldiv255 (a b : ℕ) : ℕ :=
  let t := a * b + 128
  (t + t / 256) / 256

/-- Per-pixel blend of `paste(src, box, mask := src)`: every channel is
interpolated between destination and source by the mask's alpha band
(straight alpha compositing as in Pillow's `Paste.c`). -/
def blendPixel (s d : Pixel) : Pixel :=
  { r := muldiv255 d.r (255 - s.a) + muldiv255 s.r s.a
    g := muldiv255 d.g (255 - s.a) + muldiv255 s.g s.a
    b := muldiv255 d.b (255 - s.a) + muldiv255 s.b s.a
    a := muldiv255 d.a (255 - s.a) + muldiv255 s.a s.a }

/-- `Image.new("RGBA", (w, h), (0, 0, 0, 0))`: a canvas filled with one
colour. -/
def pilNew (w h : ℕ) (c : Pixel) : PImage :=
  { width := w, height := h, pix := fun _ _ => c }

/-- `dst.paste(src, (px, py), src)`: inside the pasted box the result is
the mask blend of source over destination; outside it the destination is
unchanged. -/
def pilPaste (dst src : PImage) (px py : ℤ) : PImage :=
  { dst with
    pix := fun x y =>
      if px ≤ (x : ℤ) ∧ (x : ℤ) < px + src.width ∧
          py ≤ (y : ℤ) ∧ (y : ℤ) < py + src.height then
        blendPixel (src.pix ((x : ℤ) - px).toNat ((y : ℤ) - py).toNat)
          (dst.pix x y)
      else dst.pix x y }

/-- `img.resize((w, h), LANCZOS)`: Pillow raises
`ValueError: height and width must be > 0` when a requested dimension is
below 1 (`Resample.c` / `_imaging.c`); otherwise it produces an image of
exactly the requested dimensions with resampled content. -/
def pilResize (k : ResampleK) (img : PImage) (w h : ℤ) :
    Except PILError PImage :=
  if w < 1 ∨ h < 1 then .error .valueError
  else .ok { width := w.toNat, height := h.toNat, pix := k img w.toNat h.toNat }

/-- `img.convert("RGBA")`: the model already represents every decoded
image as an RGBA raster, so normalization is the identity on it. -/
def convertRGBA (img : PImage) : PImage := img

/-! ### `resize_with_padding` (src/sh/generate-icons.py, lines 28-49) -/

/-- `ratio = min(target_size / img.width, target_size / img.height)` —
both divisions are CPython int/int true division producing doubles, and
`min` picks the smaller double. -/
def scaleRatio (img : PImage) (target_size : ℤ) : ℚ :=
  min (pydiv target_size img.width) (pydiv target_size img.height)

/-- `new_width = int(img.width * ratio)`. -/
def new_width (img : PImage) (target_size : ℤ) : ℤ :=
  pytrunc (pymulIntFloat img.width (scaleRatio img target_size))

/-- `new_height = int(img.height * ratio)`. -/
def new_height (img : PImage) (target_size : ℤ) : ℤ :=
  pytrunc (pymulIntFloat img.height (scaleRatio img target_size))

/-- `x_offset = (target_size - new_width) // 2` (Python floor division). -/
def x_offset (img : PImage) (target_size : ℤ) : ℤ :=
  Int.ediv (target_size - new_width img target_size) 2

/-- `y_offset = (target_size - new_height) // 2`. -/
def y_offset (img : PImage) (target_size : ℤ) : ℤ :=
  Int.ediv (target_size - new_height img target_size) 2

/-- The body of `resize_with_padding(img, target_size)`: convert to RGBA,
compute the aspect-preserving scaled size, resample, allocate a fully
transparent `target_size × target_size` canvas, and paste the resampled
image centered, using it as its own mask.  A zero source dimension makes
the ratio computation raise `ZeroDivisionError`; a scaled dimension
below 1 makes `resize` raise `ValueError`. -/
def resize_with_padding (k : ResampleK) (img0 : PImage) (target_size : ℤ) :
    Except PILError PImage :=
  let img := convertRGBA img0
  if img.width = 0 ∨ img.height = 0 then .error .zeroDivisionError
  else
    match pilResize k img (new_width img target_size) (new_height img target_size) with
    | .error e => .error e
    | .ok resized =>
      let new_img := pilNew target_size.toNat target_size.toNat ⟨0, 0, 0, 0⟩
      .ok (pilPaste new_img resized (x_offset img target_size) (y_offset img target_size))

/-! ### `generate_icons` (src/sh/generate-icons.py, lines 52-66) -/

/-- `SIZES = [16, 32, 48, 64, 128, 256]`. -/
def SIZES : List ℤ := [16, 32, 48, 64, 128, 256]

/-- Filesystem state.  `imgs` are the readable files on disk
(`some none` = the path exists but does not decode as an image),
`dirs` the existing directories, `outs` the written output files. -/
structure FS where
  dirs : List String
  imgs : List (String × Option PImage)
  outs : List (String × PImage)

/-- `os.path.exists`. -/
def pathExists (fs : FS) (p : String) : Bool :=
  (fs.imgs.lookup p).isSome

/-- `os.makedirs(out_dir, exist_ok=True)`. -/
def makedirs (fs : FS) (d : String) : FS :=
  { fs with dirs := if d ∈ fs.dirs then fs.dirs else d :: fs.dirs }

/-- Upsert into an association list: `square.save(output_path)` replaces
an existing file of the same name and otherwise appends. -/
def setFile : List (String × PImage) → String → PImage → List (String × PImage)
  | [], p, v => [(p, v)]
  | (q, w) :: rest, p, v =>
    if q = p then (p, v) :: rest else (q, w) :: setFile rest p v

/-- `f"icon-{size}.png"`. -/
def iconName (size : ℤ) : String := "icon-" ++ toString size ++ ".png"

/-- `os.path.join(out_dir, f"icon-{size}.png")`. -/
def iconPath (out_dir : String) (size : ℤ) : String :=
  out_dir ++ "/" ++ iconName size

/-- The `for size in SIZES` loop: render and save each icon in order,
aborting with a nonzero exit status on the first uncaught exception
(CPython exits with status 1 on an uncaught exception). -/
def genLoop (k : ResampleK) (img : PImage) (out_dir : String) :
    List ℤ → FS → ℕ × FS
  | [], fs => (0, fs)
  | size :: rest, fs =>
    match resize_with_padding k img size with
    | .error _ => (1, fs)
    | .ok square =>
      genLoop k img out_dir rest
        { fs with outs := setFile fs.outs (iconPath out_dir size) square }

/-- `generate_icons(src_path, out_dir)`: exit with status 1 before doing
anything when the source path does not exist; otherwise create the
output directory, open the source image (an undecodable file aborts the
run with a nonzero status), and run the size loop.  Returns the exit
status and the final filesystem state. -/
def generate_icons (k : ResampleK) (fs : FS) (src_path out_dir : String) :
    ℕ × FS :=
  if pathExists fs src_path = false then (1, fs)
  else
    let fs1 := makedirs fs out_dir
    match (fs.imgs.lookup src_path).join with
    | none => (1, fs1)
    | some img => genLoop k img out_dir SIZES fs1

/-! ### Small executable views used by concrete evaluations -/

/-- The error of a render result, if any. -/
def renderErr (r : Except PILError PImage) : Option PILError :=
  match r with
  | .error e => some e
  | .ok _ => none

/-- Whether a render result is a success. -/
def renderOk (r : Except PILError PImage) : Bool :=
  match r with
  | .error _ => false
  | .ok _ => true

/-- `true` when every one of the six icon files is present. -/
def allIconsPresent (outs : List (String × PImage)) (out_dir : String) : Bool :=
  SIZES.all fun size => (outs.lookup (iconPath out_dir size)).isSome

/-- The alpha channel of one pixel of a render result, as an evaluable
view (`none` when the render failed). -/
def pixA (r : Except PILError PImage) (x y : ℕ) : Option ℕ :=
  match r with
  | .ok o => some ((o.pix x y).a)
  | .error _ => none

/-- A concrete resampling kernel used for evaluating the model on
concrete inputs (the claims hold for every kernel). -/
def constK : ResampleK := fun _ _ _ _ _ => ⟨255, 255, 255, 255⟩

/-- An all-opaque-white source image of the given dimensions. -/
def mkImg (w h : ℕ) : PImage :=
  { width := w, height := h, pix := fun _ _ => ⟨255, 255, 255, 255⟩ }

/-- A concrete starting filesystem used for evaluation: the output
directory already exists and already holds an `icon-16.png` and an
unrelated `readme.txt`. -/
def fsPre : FS :=
  { dirs := ["icons"]
    imgs := [("logo.png", some (mkImg 2 1))]
    outs := [("icons/icon-16.png", mkImg 1 1), ("icons/readme.txt", mkImg 5 5)] }

/-! ### Bridges from the kernel-evaluable operations to the algebra of ℚ -/

theorem qmul_eq (a b : ℚ) : qmul a b = a * b := by
  rw [qmul, Rat.mkRat_eq_div]
  push_cast
  rw [mul_div_mul_comm, Rat.num_div_den, Rat.num_div_den]

theorem qneg_eq (a : ℚ) : qneg a = -a := by
  rw [qneg, Rat.mkRat_eq_div]
  push_cast
  rw [neg_div, Rat.num_div_den]

theorem intToQ_eq (n : ℤ) : intToQ n = (n : ℚ) := by
  rw [intToQ, Rat.mkRat_one]

theorem natToQ_eq (n : ℕ) : natToQ n = (n : ℚ) := by
  rw [natToQ, Rat.mkRat_one]
  norm_cast

theorem pow2_eq_zpow (e : ℤ) : pow2 e = (2 : ℚ) ^ e := by
  cases e with
  | ofNat n =>
    rw [pow2, Rat.mkRat_one, Int.ofNat_eq_coe, zpow_natCast]
    push_cast
    ring
  | negSucc n =>
    rw [pow2, Rat.mkRat_eq_div, zpow_negSucc]
    push_cast
    rw [one_div]

theorem pow2_pos (e : ℤ) : 0 < pow2 e := by
  rw [pow2_eq_zpow]
  exact zpow_pos (by norm_num) e

theorem pow2_le_pow2 {a b : ℤ} (h : a ≤ b) : pow2 a ≤ pow2 b := by
  rw [pow2_eq_zpow, pow2_eq_zpow]
  exact zpow_le_zpow_right₀ (by norm_num) h

theorem pow2_mul_pow2 (a b : ℤ) : pow2 a * pow2 b = pow2 (a + b) := by
  rw [pow2_eq_zpow, pow2_eq_zpow, pow2_eq_zpow]
  rw [zpow_add₀ (by norm_num : (2:ℚ) ≠ 0)]

/-! ### Bit lengths -/

theorem natBitsAux_zero (fuel : ℕ) : natBitsAux fuel 0 = 0 := by
  cases fuel with
  | zero => rfl
  | succ f => simp [natBitsAux]

theorem natBitsAux_spec :
    ∀ fuel n, 1 ≤ n → n ≤ fuel →
      2 ^ (natBitsAux fuel n - 1) ≤ n ∧ n < 2 ^ natBitsAux fuel n := by
  intro fuel
  induction fuel with
  | zero => intro n h1 h0; omega
  | succ f ih =>
    intro n h1 hle
    have hne : ¬ n = 0 := by omega
    rw [natBitsAux, if_neg hne]
    by_cases h2 : n = 1
    · subst h2
      rw [show (1:ℕ) / 2 = 0 from rfl, natBitsAux_zero]
      norm_num
    · have hn2 : 2 ≤ n := by omega
      have hd1 : 1 ≤ n / 2 := Nat.one_le_div_iff (by norm_num) |>.mpr hn2
      have hdf : n / 2 ≤ f := by
        have := Nat.div_le_self n 2
        omega
      obtain ⟨hlo, hhi⟩ := ih (n / 2) hd1 hdf
      set b := natBitsAux f (n / 2) with hb
      have hb1 : 1 ≤ b := by
        by_contra hc
        have : b = 0 := by omega
        rw [this] at hhi
        omega
      constructor
      · have hbeq : b + 1 - 1 = b := by omega
        rw [hbeq]
        have h2b : 2 ^ b = 2 * 2 ^ (b - 1) := by
          conv_lhs => rw [show b = (b - 1) + 1 by omega]
          rw [pow_succ]
          ring
        rw [h2b]
        omega
      · rw [pow_succ]
        omega

theorem natBits_spec {n : ℕ} (h : 1 ≤ n) :
    2 ^ (natBits n - 1) ≤ n ∧ n < 2 ^ natBits n :=
  natBitsAux_spec n n h le_rfl

theorem natBits_pos {n : ℕ} (h : 1 ≤ n) : 1 ≤ natBits n := by
  obtain ⟨-, hhi⟩ := natBits_spec h
  by_contra hc
  have : natBits n = 0 := by omega
  rw [this] at hhi
  omega

/-! ### The binary exponent -/

theorem qexp_spec {x : ℚ} (hx : 0 < x) :
    pow2 (qexp x) ≤ x ∧ x < pow2 (qexp x + 1) := by
  have hnum : 0 < x.num := Rat.num_pos.mpr hx
  have hden : 0 < x.den := x.pos
  set p := x.num.toNat with hp
  have hp1 : 1 ≤ p := by omega
  have hd1 : 1 ≤ x.den := hden
  obtain ⟨hplo, hphi⟩ := natBits_spec hp1
  obtain ⟨hdlo, hdhi⟩ := natBits_spec hd1
  set bp := natBits p with hbp
  set bq := natBits x.den with hbq
  have hbp1 : 1 ≤ bp := natBits_pos hp1
  have hbq1 : 1 ≤ bq := natBits_pos hd1
  have hxval : x = (p : ℚ) / (x.den : ℚ) := by
    have hpz : (p : ℤ) = x.num := Int.toNat_of_nonneg (le_of_lt hnum)
    have hcast : ((x.num : ℚ)) = (p : ℚ) := by exact_mod_cast hpz.symm
    rw [← hcast, Rat.num_div_den]
  have hdenQ : (0 : ℚ) < (x.den : ℚ) := by exact_mod_cast hden
  -- x is strictly between pow2 (a - 1) and pow2 (a + 1) for a = bp - bq
  set a : ℤ := (bp : ℤ) - (bq : ℤ) with ha
  have hlow : pow2 (a - 1) < x := by
    have h1 : pow2 (a - 1) = ((2 ^ (bp - 1) : ℕ) : ℚ) / ((2 ^ bq : ℕ) : ℚ) := by
      rw [pow2_eq_zpow, eq_div_iff (by positivity : ((2 ^ bq : ℕ) : ℚ) ≠ 0)]
      push_cast
      rw [← zpow_natCast (2:ℚ) bq, ← zpow_natCast (2:ℚ) (bp - 1),
        ← zpow_add₀ (by norm_num : (2:ℚ) ≠ 0)]
      congr 1
      push_cast [Nat.cast_sub hbp1]
      omega
    rw [h1, hxval, div_lt_div_iff₀ (by positivity) hdenQ]
    have hA : ((2 ^ (bp - 1) : ℕ) : ℚ) ≤ (p : ℚ) := by exact_mod_cast hplo
    have hB : ((x.den : ℕ) : ℚ) < ((2 ^ bq : ℕ) : ℚ) := by exact_mod_cast hdhi
    calc ((2 ^ (bp - 1) : ℕ) : ℚ) * (x.den : ℚ)
        < ((2 ^ (bp - 1) : ℕ) : ℚ) * ((2 ^ bq : ℕ) : ℚ) := by
          apply mul_lt_mul_of_pos_left hB
          positivity
      _ ≤ (p : ℚ) * ((2 ^ bq : ℕ) : ℚ) := by
          apply mul_le_mul_of_nonneg_right hA
          positivity
  have hhigh : x < pow2 (a + 1) := by
    have h1 : pow2 (a + 1) = ((2 ^ bp : ℕ) : ℚ) / ((2 ^ (bq - 1) : ℕ) : ℚ) := by
      rw [pow2_eq_zpow, eq_div_iff (by positivity : ((2 ^ (bq - 1) : ℕ) : ℚ) ≠ 0)]
      push_cast
      rw [← zpow_natCast (2:ℚ) (bq - 1), ← zpow_natCast (2:ℚ) bp,
        ← zpow_add₀ (by norm_num : (2:ℚ) ≠ 0)]
      congr 1
      push_cast [Nat.cast_sub hbq1]
      omega
    rw [h1, hxval, div_lt_div_iff₀ hdenQ (by positivity)]
    have hA : (p : ℚ) < ((2 ^ bp : ℕ) : ℚ) := by exact_mod_cast hphi
    have hB : ((2 ^ (bq - 1) : ℕ) : ℚ) ≤ (x.den : ℚ) := by exact_mod_cast hdlo
    calc (p : ℚ) * ((2 ^ (bq - 1) : ℕ) : ℚ)
        < ((2 ^ bp : ℕ) : ℚ) * ((2 ^ (bq - 1) : ℕ) : ℚ) := by
          apply mul_lt_mul_of_pos_right hA
          positivity
      _ ≤ ((2 ^ bp : ℕ) : ℚ) * (x.den : ℚ) := by
          apply mul_le_mul_of_nonneg_left hB
          positivity
  have hqe : qexp x = if pow2 a ≤ x then a else a - 1 := by
    rw [qexp]
  by_cases hcmp : pow2 a ≤ x
  · rw [hqe, if_pos hcmp]
    exact ⟨hcmp, hhigh⟩
  · rw [hqe, if_neg hcmp]
    constructor
    · exact le_of_lt hlow
    · rw [sub_add_cancel]
      exact lt_of_not_le hcmp

theorem qexp_unique {x : ℚ} {e : ℤ} (hx : 0 < x)
    (hlo : pow2 e ≤ x) (hhi : x < pow2 (e + 1)) : qexp x = e := by
  obtain ⟨hlo2, hhi2⟩ := qexp_spec hx
  by_contra hne
  rcases lt_or_gt_of_ne hne with h | h
  · have : pow2 (qexp x + 1) ≤ pow2 e := pow2_le_pow2 (by omega)
    linarith
  · have : pow2 (e + 1) ≤ pow2 (qexp x) := pow2_le_pow2 (by omega)
    linarith

theorem qexp_mono {x y : ℚ} (hx : 0 < x) (hxy : x ≤ y) :
    qexp x ≤ qexp y := by
  have hy : 0 < y := lt_of_lt_of_le hx hxy
  obtain ⟨hxlo, hxhi⟩ := qexp_spec hx
  obtain ⟨hylo, hyhi⟩ := qexp_spec hy
  by_contra hc
  have : pow2 (qexp y + 1) ≤ pow2 (qexp x) := pow2_le_pow2 (by omega)
  linarith

/-! ### Round to nearest integer, ties to even -/

theorem floor_eq_ediv (y : ℚ) : ⌊y⌋ = Int.ediv y.num y.den := by
  rw [Rat.floor_def]
  rfl

theorem fract_eq_rem_div (y : ℚ) :
    y - ⌊y⌋ = ((Int.emod y.num y.den : ℤ) : ℚ) / ((y.den : ℚ)) := by
  have hd0 : ((y.den : ℚ)) ≠ 0 := by
    have := y.pos
    positivity
  rw [eq_div_iff hd0, sub_mul, Rat.mul_den_eq_num]
  have hemod : Int.emod y.num y.den = y.num - (y.den : ℤ) * ⌊y⌋ := by
    rw [floor_eq_ediv]
    exact Int.emod_def y.num (y.den : ℤ)
  rw [hemod]
  push_cast
  ring

/-- The branch conditions of `nearestEven`, translated to the fractional
part of the argument. -/
theorem nearestEven_ite (y : ℚ) :
    nearestEven y =
      if y - ⌊y⌋ < 1/2 then ⌊y⌋
      else if 1/2 < y - ⌊y⌋ then ⌊y⌋ + 1
      else if ⌊y⌋ % 2 = 0 then ⌊y⌋ else ⌊y⌋ + 1 := by
  have hdpos : (0:ℚ) < (y.den : ℚ) := by
    have := y.pos
    positivity
  have hiff1 : (2 * Int.emod y.num y.den < (y.den : ℤ)) ↔ y - ⌊y⌋ < 1/2 := by
    rw [fract_eq_rem_div, div_lt_div_iff₀ hdpos (by norm_num : (0:ℚ) < 2)]
    constructor
    · intro h
      have h2 : ((2 * Int.emod y.num y.den : ℤ) : ℚ) < ((y.den : ℤ) : ℚ) := by
        exact_mod_cast h
      push_cast at h2
      linarith
    · intro h
      have h2 : ((2 * Int.emod y.num y.den : ℤ) : ℚ) < ((y.den : ℤ) : ℚ) := by
        push_cast
        linarith
      exact_mod_cast h2
  have hiff2 : ((y.den : ℤ) < 2 * Int.emod y.num y.den) ↔ 1/2 < y - ⌊y⌋ := by
    rw [fract_eq_rem_div, div_lt_div_iff₀ (by norm_num : (0:ℚ) < 2) hdpos]
    constructor
    · intro h
      have h2 : (((y.den : ℤ)) : ℚ) < ((2 * Int.emod y.num y.den : ℤ) : ℚ) := by
        exact_mod_cast h
      push_cast at h2
      linarith
    · intro h
      have h2 : (((y.den : ℤ)) : ℚ) < ((2 * Int.emod y.num y.den : ℤ) : ℚ) := by
        push_cast
        linarith
      exact_mod_cast h2
  simp only [nearestEven, ← floor_eq_ediv, hiff1, hiff2]

theorem nearestEven_cases (y : ℚ) :
    nearestEven y = ⌊y⌋ ∨ nearestEven y = ⌊y⌋ + 1 := by
  rw [nearestEven_ite]
  split_ifs <;> simp

theorem nearestEven_close (y : ℚ) :
    y - 1/2 ≤ (nearestEven y : ℚ) ∧ (nearestEven y : ℚ) ≤ y + 1/2 := by
  have hfl : (⌊y⌋ : ℚ) ≤ y := Int.floor_le y
  have hfu : y < (⌊y⌋ : ℚ) + 1 := Int.lt_floor_add_one y
  rw [nearestEven_ite]
  split_ifs with h1 h2 h3 <;> constructor <;> push_cast <;> linarith

theorem nearestEven_mono {x y : ℚ} (h : x ≤ y) :
    nearestEven x ≤ nearestEven y := by
  have hfm : ⌊x⌋ ≤ ⌊y⌋ := Int.floor_le_floor h
  by_cases heq : ⌊x⌋ = ⌊y⌋
  · rw [nearestEven_ite, nearestEven_ite, heq]
    have hxy : x - (⌊y⌋ : ℚ) ≤ y - (⌊y⌋ : ℚ) := by linarith
    split_ifs <;> first | omega | linarith
  · have hlt : ⌊x⌋ + 1 ≤ ⌊y⌋ := by omega
    rcases nearestEven_cases x with hx | hx <;>
      rcases nearestEven_cases y with hy | hy <;> omega

/-! ### Properties of binary64 rounding -/

theorem pow2_zero : pow2 0 = 1 := by
  rw [pow2_eq_zpow, zpow_zero]

theorem pow2_neg_one : pow2 (-1) = 1/2 := by
  rw [pow2_eq_zpow, zpow_neg_one]
  norm_num

theorem pow2_ofNat (n : ℕ) : pow2 (n : ℤ) = ((2 ^ n : ℕ) : ℚ) := by
  rw [pow2_eq_zpow, zpow_natCast]
  push_cast
  ring

theorem pow2_53 : pow2 53 = ((2 ^ 53 : ℤ) : ℚ) := by
  rw [show (53 : ℤ) = ((53 : ℕ) : ℤ) by norm_num, pow2_ofNat]
  push_cast
  ring

theorem pow2_52 : pow2 52 = ((2 ^ 52 : ℤ) : ℚ) := by
  rw [show (52 : ℤ) = ((52 : ℕ) : ℤ) by norm_num, pow2_ofNat]
  push_cast
  ring

theorem roundPos_eq (x : ℚ) :
    roundPos x =
      (nearestEven (x * pow2 (52 - qexp x)) : ℚ) * pow2 (qexp x - 52) := by
  rw [roundPos, qmul_eq, qmul_eq, intToQ_eq]

theorem roundPos_err {x : ℚ} (hx : 0 < x) :
    x - x * pow2 (-53) ≤ roundPos x ∧ roundPos x ≤ x + x * pow2 (-53) := by
  obtain ⟨hlo, hhi⟩ := qexp_spec hx
  set e := qexp x with he
  set z := x * pow2 (52 - e) with hz
  obtain ⟨hc1, hc2⟩ := nearestEven_close z
  have hppos : (0:ℚ) < pow2 (e - 52) := pow2_pos _
  have hrp : roundPos x = (nearestEven z : ℚ) * pow2 (e - 52) := roundPos_eq x
  have hzp : z * pow2 (e - 52) = x := by
    rw [hz, mul_assoc, pow2_mul_pow2]
    rw [show 52 - e + (e - 52) = 0 by ring, pow2_zero, mul_one]
  have hhalf : (1/2 : ℚ) * pow2 (e - 52) = pow2 (e - 53) := by
    rw [← pow2_neg_one, pow2_mul_pow2]
    congr 1
    ring
  have hbound : pow2 (e - 53) ≤ x * pow2 (-53) := by
    rw [show e - 53 = e + (-53) by ring, ← pow2_mul_pow2]
    exact mul_le_mul_of_nonneg_right hlo (le_of_lt (pow2_pos _))
  constructor
  · have hA := mul_le_mul_of_nonneg_right hc1 (le_of_lt hppos)
    rw [sub_mul, hzp, hhalf] at hA
    rw [hrp]
    linarith
  · have hA := mul_le_mul_of_nonneg_right hc2 (le_of_lt hppos)
    rw [add_mul, hzp, hhalf] at hA
    rw [hrp]
    linarith

theorem pow2_neg53_lt_one : pow2 (-53) ≤ 1/2 := by
  rw [← pow2_neg_one]
  exact pow2_le_pow2 (by norm_num)

theorem roundPos_pos {x : ℚ} (hx : 0 < x) : 0 < roundPos x := by
  obtain ⟨h1, -⟩ := roundPos_err hx
  have hu : x * pow2 (-53) ≤ x * (1/2) :=
    mul_le_mul_of_nonneg_left pow2_neg53_lt_one (le_of_lt hx)
  linarith

theorem roundPos_le_pow2 {x : ℚ} (hx : 0 < x) :
    roundPos x ≤ pow2 (qexp x + 1) := by
  obtain ⟨hlo, hhi⟩ := qexp_spec hx
  set e := qexp x with he
  set z := x * pow2 (52 - e) with hz
  have hzlt : z < pow2 53 := by
    have := mul_lt_mul_of_pos_right hhi (pow2_pos (52 - e))
    rw [pow2_mul_pow2, show e + 1 + (52 - e) = 53 by ring] at this
    exact this
  have hfloor : ⌊z⌋ < (2 ^ 53 : ℤ) := by
    rw [Int.floor_lt]
    calc z < pow2 53 := hzlt
      _ = (((2 ^ 53 : ℤ)) : ℚ) := pow2_53
  have hne : nearestEven z ≤ (2 ^ 53 : ℤ) := by
    rcases nearestEven_cases z with h | h <;> omega
  rw [roundPos_eq, ← he, ← hz]
  calc (nearestEven z : ℚ) * pow2 (e - 52)
      ≤ ((2 ^ 53 : ℤ) : ℚ) * pow2 (e - 52) := by
        apply mul_le_mul_of_nonneg_right _ (le_of_lt (pow2_pos _))
        exact_mod_cast hne
    _ = pow2 53 * pow2 (e - 52) := by rw [pow2_53]
    _ = pow2 (e + 1) := by
        rw [pow2_mul_pow2]
        congr 1
        ring

theorem pow2_le_roundPos {x : ℚ} (hx : 0 < x) :
    pow2 (qexp x) ≤ roundPos x := by
  obtain ⟨hlo, hhi⟩ := qexp_spec hx
  set e := qexp x with he
  set z := x * pow2 (52 - e) with hz
  have hzge : pow2 52 ≤ z := by
    have := mul_le_mul_of_nonneg_right hlo (le_of_lt (pow2_pos (52 - e)))
    rw [pow2_mul_pow2, show e + (52 - e) = 52 by ring] at this
    exact this
  have hfloor : (2 ^ 52 : ℤ) ≤ ⌊z⌋ := by
    rw [Int.le_floor]
    calc (((2 ^ 52 : ℤ)) : ℚ) = pow2 52 := pow2_52.symm
      _ ≤ z := hzge
  have hne : (2 ^ 52 : ℤ) ≤ nearestEven z := by
    rcases nearestEven_cases z with h | h <;> omega
  rw [roundPos_eq, ← he, ← hz]
  calc pow2 e = pow2 52 * pow2 (e - 52) := by
        rw [pow2_mul_pow2]
        congr 1
        ring
    _ = ((2 ^ 52 : ℤ) : ℚ) * pow2 (e - 52) := by rw [pow2_52]
    _ ≤ (nearestEven z : ℚ) * pow2 (e - 52) := by
        apply mul_le_mul_of_nonneg_right _ (le_of_lt (pow2_pos _))
        exact_mod_cast hne

theorem roundPos_mono {x y : ℚ} (hx : 0 < x) (h : x ≤ y) :
    roundPos x ≤ roundPos y := by
  have hy : 0 < y := lt_of_lt_of_le hx h
  have hexy : qexp x ≤ qexp y := qexp_mono hx h
  rcases eq_or_lt_of_le hexy with heq | hlt
  · rw [roundPos_eq, roundPos_eq, ← heq]
    apply mul_le_mul_of_nonneg_right _ (le_of_lt (pow2_pos _))
    have := nearestEven_mono
      (mul_le_mul_of_nonneg_right h (le_of_lt (pow2_pos (52 - qexp x))))
    exact_mod_cast this
  · calc roundPos x ≤ pow2 (qexp x + 1) := roundPos_le_pow2 hx
      _ ≤ pow2 (qexp y) := pow2_le_pow2 (by omega)
      _ ≤ roundPos y := pow2_le_roundPos hy

theorem roundQ_of_pos {x : ℚ} (hx : 0 < x) : roundQ x = roundPos x := by
  rw [roundQ, if_neg (ne_of_gt hx), if_neg (not_lt.mpr (le_of_lt hx))]

theorem roundQ_zero : roundQ 0 = 0 := by
  rw [roundQ, if_pos rfl]

theorem roundQ_of_neg {x : ℚ} (hx : x < 0) :
    roundQ x = -(roundPos (-x)) := by
  rw [roundQ, if_neg (ne_of_lt hx), if_pos hx, qneg_eq, qneg_eq]

theorem roundQ_err_of_nonneg {x : ℚ} (hx : 0 ≤ x) :
    x - x * pow2 (-53) ≤ roundQ x ∧ roundQ x ≤ x + x * pow2 (-53) := by
  rcases eq_or_lt_of_le hx with heq | hpos
  · rw [← heq, roundQ_zero]
    norm_num
  · rw [roundQ_of_pos hpos]
    exact roundPos_err hpos

theorem roundQ_nonneg {x : ℚ} (hx : 0 ≤ x) : 0 ≤ roundQ x := by
  rcases eq_or_lt_of_le hx with heq | hpos
  · rw [← heq, roundQ_zero]
  · rw [roundQ_of_pos hpos]
    exact le_of_lt (roundPos_pos hpos)

theorem roundQ_pos {x : ℚ} (hx : 0 < x) : 0 < roundQ x := by
  rw [roundQ_of_pos hx]
  exact roundPos_pos hx

theorem roundQ_nonpos {x : ℚ} (hx : x ≤ 0) : roundQ x ≤ 0 := by
  rcases eq_or_lt_of_le hx with heq | hneg
  · rw [heq, roundQ_zero]
  · rw [roundQ_of_neg hneg]
    have : 0 < roundPos (-x) := roundPos_pos (by linarith)
    linarith

theorem roundQ_mono {x y : ℚ} (h : x ≤ y) : roundQ x ≤ roundQ y := by
  rcases lt_trichotomy x 0 with hx | hx | hx
  · rcases lt_trichotomy y 0 with hy | hy | hy
    · rw [roundQ_of_neg hx, roundQ_of_neg hy]
      have hm := roundPos_mono (show (0:ℚ) < -y by linarith)
        (show -y ≤ -x by linarith)
      linarith
    · rw [hy, roundQ_zero]
      exact roundQ_nonpos (le_of_lt hx)
    · calc roundQ x ≤ 0 := roundQ_nonpos (le_of_lt hx)
        _ ≤ roundQ y := roundQ_nonneg (le_of_lt hy)
  · rw [hx, roundQ_zero]
    exact roundQ_nonneg (by linarith)
  · rw [roundQ_of_pos hx, roundQ_of_pos (lt_of_lt_of_le hx h)]
    exact roundPos_mono hx h

/-! ### Properties of Python `int()` truncation -/

theorem pytrunc_eq_floor {q : ℚ} (hq : 0 ≤ q) : pytrunc q = ⌊q⌋ := by
  rw [pytrunc, floor_eq_ediv]
  have hnum : 0 ≤ q.num := Rat.num_nonneg.mpr hq
  have hden : 0 ≤ (q.den : ℤ) := by positivity
  rw [Int.tdiv_eq_ediv hnum hden]
  rfl

theorem pytrunc_neg (q : ℚ) : pytrunc (-q) = -pytrunc q := by
  rw [pytrunc, pytrunc, Rat.num_neg_eq_neg_num, Rat.den_neg_eq_den, Int.neg_tdiv]

theorem pytrunc_nonneg {q : ℚ} (hq : 0 ≤ q) : 0 ≤ pytrunc q := by
  rw [pytrunc_eq_floor hq]
  exact Int.floor_nonneg.mpr hq

theorem pytrunc_nonpos {q : ℚ} (hq : q ≤ 0) : pytrunc q ≤ 0 := by
  have h1 : pytrunc (-q) = -pytrunc q := pytrunc_neg q
  have h2 : 0 ≤ pytrunc (-q) := pytrunc_nonneg (by linarith)
  omega

theorem pytrunc_mono {a b : ℚ} (h : a ≤ b) : pytrunc a ≤ pytrunc b := by
  by_cases ha : 0 ≤ a
  · rw [pytrunc_eq_floor ha, pytrunc_eq_floor (le_trans ha h)]
    exact Int.floor_le_floor h
  · by_cases hb : 0 ≤ b
    · calc pytrunc a ≤ 0 := pytrunc_nonpos (by linarith)
        _ ≤ pytrunc b := pytrunc_nonneg hb
    · have h1 : pytrunc (-a) = -pytrunc a := pytrunc_neg a
      have h2 : pytrunc (-b) = -pytrunc b := pytrunc_neg b
      have h3 : pytrunc (-b) ≤ pytrunc (-a) := by
        rw [pytrunc_eq_floor (by linarith), pytrunc_eq_floor (by linarith)]
        exact Int.floor_le_floor (by linarith)
      omega

theorem pytrunc_le_of_lt {q : ℚ} {n : ℤ} (hq : 0 ≤ q) (h : q < (n : ℚ) + 1) :
    pytrunc q ≤ n := by
  rw [pytrunc_eq_floor hq]
  have : ⌊q⌋ < n + 1 := by
    rw [Int.floor_lt]
    push_cast
    exact h
  omega

theorem le_pytrunc_of_le {q : ℚ} {n : ℤ} (hq : 0 ≤ q) (h : (n : ℚ) ≤ q) :
    n ≤ pytrunc q := by
  rw [pytrunc_eq_floor hq]
  exact Int.le_floor.mpr h

/-! ### Bounds on the scaled dimensions -/

theorem pydiv_nonneg {S : ℤ} {w : ℕ} (hS : 0 ≤ S) : 0 ≤ pydiv S w := by
  rw [pydiv]
  apply roundQ_nonneg
  rw [Rat.mkRat_eq_div]
  positivity

theorem pydiv_nonpos {S : ℤ} {w : ℕ} (hS : S ≤ 0) : pydiv S w ≤ 0 := by
  rw [pydiv]
  apply roundQ_nonpos
  rw [Rat.mkRat_eq_div]
  apply div_nonpos_of_nonpos_of_nonneg
  · exact_mod_cast hS
  · positivity

theorem pydiv_le {S : ℤ} {w : ℕ} (hS : 0 ≤ S) :
    pydiv S w ≤ (S : ℚ) / (w : ℚ) + ((S : ℚ) / (w : ℚ)) * pow2 (-53) := by
  rw [pydiv, Rat.mkRat_eq_div]
  exact (roundQ_err_of_nonneg (by positivity)).2

theorem pydiv_ge {S : ℤ} {w : ℕ} (hS : 0 ≤ S) :
    (S : ℚ) / (w : ℚ) - ((S : ℚ) / (w : ℚ)) * pow2 (-53) ≤ pydiv S w := by
  rw [pydiv, Rat.mkRat_eq_div]
  exact (roundQ_err_of_nonneg (by positivity)).1

theorem scaleRatio_nonneg {img : PImage} {S : ℤ} (hS : 0 ≤ S) :
    0 ≤ scaleRatio img S := by
  rw [scaleRatio]
  exact le_min (pydiv_nonneg hS) (pydiv_nonneg hS)

theorem scaleRatio_nonpos {img : PImage} {S : ℤ} (hS : S ≤ 0) :
    scaleRatio img S ≤ 0 := by
  rw [scaleRatio]
  exact le_trans (min_le_left _ _) (pydiv_nonpos hS)

theorem natToQ_err (w : ℕ) :
    (w : ℚ) - (w : ℚ) * pow2 (-53) ≤ roundQ (natToQ w) ∧
      roundQ (natToQ w) ≤ (w : ℚ) + (w : ℚ) * pow2 (-53) := by
  rw [natToQ_eq]
  exact roundQ_err_of_nonneg (by positivity)

theorem pow2_neg53_val : pow2 (-53) = 1 / 9007199254740992 := by
  rw [pow2_eq_zpow, show (-53 : ℤ) = -(53 : ℤ) by ring, zpow_neg,
    show ((53 : ℤ)) = ((53 : ℕ) : ℤ) by norm_num, zpow_natCast]
  norm_num

/-- The central upper estimate: each truncated scaled dimension is at most
the target size (three roundings, each off by a relative `2 ^ (-53)`,
cannot push `dim * (S / dim)` up to `S + 1`). -/
theorem pymul_ratio_lt {img : PImage} {S : ℤ} {d : ℕ}
    (hd : 1 ≤ d) (hw : 1 ≤ img.width) (hh : 1 ≤ img.height)
    (hS : 0 < S) (hS2 : S ≤ 1125899906842624)
    (hcase : scaleRatio img S ≤ pydiv S d) :
    pymulIntFloat d (scaleRatio img S) < (S : ℚ) + 1 ∧
      0 ≤ pymulIntFloat d (scaleRatio img S) := by
  set u : ℚ := pow2 (-53) with hu
  have hu_pos : 0 < u := pow2_pos _
  have hu_val : u = 1 / 9007199254740992 := pow2_neg53_val
  set W : ℚ := (d : ℚ) with hW
  have hW_pos : 0 < W := by
    rw [hW]
    exact_mod_cast hd
  set A : ℚ := (S : ℚ) / W with hA
  have hA_pos : 0 < A := by
    rw [hA]
    apply div_pos _ hW_pos
    exact_mod_cast hS
  have hWA : W * A = (S : ℚ) := by
    rw [hA]
    field_simp
  have hr_le : scaleRatio img S ≤ A + A * u := le_trans hcase (pydiv_le (le_of_lt hS))
  have hr_nonneg : 0 ≤ scaleRatio img S := scaleRatio_nonneg (le_of_lt hS)
  have hw_le : roundQ (natToQ d) ≤ W + W * u := (natToQ_err d).2
  have hw_nonneg : 0 ≤ roundQ (natToQ d) := by
    rw [natToQ_eq]
    exact roundQ_nonneg (by positivity)
  have hprod_le : roundQ (natToQ d) * scaleRatio img S ≤ (W + W * u) * (A + A * u) :=
    mul_le_mul hw_le hr_le hr_nonneg (by positivity)
  have hprod_nonneg : 0 ≤ roundQ (natToQ d) * scaleRatio img S :=
    mul_nonneg hw_nonneg hr_nonneg
  have hexpand : (W + W * u) * (A + A * u) = (S : ℚ) * (1 + 2 * u + u ^ 2) := by
    have h1 : (W + W * u) * (A + A * u) = (W * A) * (1 + 2 * u + u ^ 2) := by ring
    rw [h1, hWA]
  rw [hexpand] at hprod_le
  have hS_nonneg : (0 : ℚ) ≤ (S : ℚ) := by exact_mod_cast le_of_lt hS
  have hround : pymulIntFloat d (scaleRatio img S) ≤
      (S : ℚ) * (1 + 2 * u + u ^ 2) + (S : ℚ) * (1 + 2 * u + u ^ 2) * u := by
    rw [pymulIntFloat, qmul_eq]
    obtain ⟨-, h2⟩ := roundQ_err_of_nonneg hprod_nonneg
    have hmul_le : roundQ (natToQ d) * scaleRatio img S * u ≤
        (S : ℚ) * (1 + 2 * u + u ^ 2) * u :=
      mul_le_mul_of_nonneg_right hprod_le (le_of_lt hu_pos)
    linarith
  have hfinal : (S : ℚ) * (1 + 2 * u + u ^ 2) + (S : ℚ) * (1 + 2 * u + u ^ 2) * u
      < (S : ℚ) + 1 := by
    have hSle : (S : ℚ) ≤ 1125899906842624 := by exact_mod_cast hS2
    have herr : (S : ℚ) * (3 * u + 3 * u ^ 2 + u ^ 3) ≤
        1125899906842624 * (3 * u + 3 * u ^ 2 + u ^ 3) := by
      apply mul_le_mul_of_nonneg_right hSle
      positivity
    have hnum : (1125899906842624 : ℚ) * (3 * u + 3 * u ^ 2 + u ^ 3) < 1 := by
      rw [hu_val]
      norm_num
    nlinarith [herr, hnum]
  constructor
  · linarith
  · rw [pymulIntFloat, qmul_eq]
    exact roundQ_nonneg hprod_nonneg

theorem new_width_le {img : PImage} {S : ℤ}
    (hw : 1 ≤ img.width) (hh : 1 ≤ img.height)
    (hS : 0 < S) (hS2 : S ≤ 1125899906842624) :
    new_width img S ≤ S := by
  obtain ⟨hlt, hnn⟩ := pymul_ratio_lt hw hw hh hS hS2 (min_le_left _ _)
  rw [new_width]
  exact pytrunc_le_of_lt hnn (by push_cast; linarith)

theorem new_height_le {img : PImage} {S : ℤ}
    (hw : 1 ≤ img.width) (hh : 1 ≤ img.height)
    (hS : 0 < S) (hS2 : S ≤ 1125899906842624) :
    new_height img S ≤ S := by
  obtain ⟨hlt, hnn⟩ := pymul_ratio_lt hh hw hh hS hS2 (min_le_right _ _)
  rw [new_height]
  exact pytrunc_le_of_lt hnn (by push_cast; linarith)

theorem new_width_nonpos {img : PImage} {S : ℤ} (hS : S ≤ 0) :
    new_width img S ≤ 0 := by
  rw [new_width]
  apply pytrunc_nonpos
  rw [pymulIntFloat, qmul_eq]
  apply roundQ_nonpos
  apply mul_nonpos_of_nonneg_of_nonpos
  · rw [natToQ_eq]
    exact roundQ_nonneg (by positivity)
  · exact scaleRatio_nonpos hS

theorem new_height_nonpos {img : PImage} {S : ℤ} (hS : S ≤ 0) :
    new_height img S ≤ 0 := by
  rw [new_height]
  apply pytrunc_nonpos
  rw [pymulIntFloat, qmul_eq]
  apply roundQ_nonpos
  apply mul_nonpos_of_nonneg_of_nonpos
  · rw [natToQ_eq]
    exact roundQ_nonneg (by positivity)
  · exact scaleRatio_nonpos hS

theorem scaleRatio_mono {img : PImage} {S T : ℤ} (hST : S ≤ T) :
    scaleRatio img S ≤ scaleRatio img T := by
  have h1 : ∀ d : ℕ, pydiv S d ≤ pydiv T d := by
    intro d
    rw [pydiv, pydiv]
    apply roundQ_mono
    rw [Rat.mkRat_eq_div, Rat.mkRat_eq_div]
    rcases Nat.eq_zero_or_pos d with hd | hd
    · rw [hd]
      push_cast
      rw [div_zero, div_zero]
    · have hd' : (0 : ℚ) < (d : ℚ) := by exact_mod_cast hd
      have hST' : (S : ℚ) ≤ (T : ℚ) := by exact_mod_cast hST
      gcongr
  rw [scaleRatio, scaleRatio]
  exact min_le_min (h1 _) (h1 _)

/-- Lower estimate for a square source: the float round-trip loses at most
one pixel. -/
theorem pymul_ratio_gt_square {img : PImage} {S : ℤ}
    (hsq : img.width = img.height) (hw : 1 ≤ img.width)
    (hS : 0 < S) (hS2 : S ≤ 1125899906842624) :
    (S : ℚ) - 1 < pymulIntFloat img.width (scaleRatio img S) := by
  set u : ℚ := pow2 (-53) with hu
  have hu_pos : 0 < u := pow2_pos _
  have hu_val : u = 1 / 9007199254740992 := pow2_neg53_val
  have hu_lt : u ≤ 1 / 2 := pow2_neg53_lt_one
  set d : ℕ := img.width with hd
  have hratio : scaleRatio img S = pydiv S d := by
    rw [scaleRatio, ← hsq, ← hd, min_self]
  set W : ℚ := (d : ℚ) with hW
  have hW_pos : 0 < W := by
    rw [hW]
    exact_mod_cast hw
  set A : ℚ := (S : ℚ) / W with hA
  have hA_pos : 0 < A := by
    rw [hA]
    apply div_pos _ hW_pos
    exact_mod_cast hS
  have hWA : W * A = (S : ℚ) := by
    rw [hA]
    field_simp
  have hr_ge : A - A * u ≤ scaleRatio img S := by
    rw [hratio]
    exact pydiv_ge (le_of_lt hS)
  have hr_le : scaleRatio img S ≤ A + A * u := by
    rw [hratio]
    exact pydiv_le (le_of_lt hS)
  have hr_nonneg : 0 ≤ scaleRatio img S := scaleRatio_nonneg (le_of_lt hS)
  have hw_ge : W - W * u ≤ roundQ (natToQ d) := (natToQ_err d).1
  have hw_le : roundQ (natToQ d) ≤ W + W * u := (natToQ_err d).2
  have hw_nonneg : 0 ≤ roundQ (natToQ d) := by
    rw [natToQ_eq]
    exact roundQ_nonneg (by positivity)
  have hAu : 0 ≤ A - A * u := by nlinarith
  have hprod_ge : (W - W * u) * (A - A * u) ≤ roundQ (natToQ d) * scaleRatio img S :=
    mul_le_mul hw_ge hr_ge hAu hw_nonneg
  have hprod_le : roundQ (natToQ d) * scaleRatio img S ≤ (W + W * u) * (A + A * u) :=
    mul_le_mul hw_le hr_le hr_nonneg (by positivity)
  have hprod_nonneg : 0 ≤ roundQ (natToQ d) * scaleRatio img S :=
    mul_nonneg hw_nonneg hr_nonneg
  have hexpand_lo : (W - W * u) * (A - A * u) = (S : ℚ) * (1 - 2 * u + u ^ 2) := by
    have h1 : (W - W * u) * (A - A * u) = (W * A) * (1 - 2 * u + u ^ 2) := by ring
    rw [h1, hWA]
  have hexpand_hi : (W + W * u) * (A + A * u) = (S : ℚ) * (1 + 2 * u + u ^ 2) := by
    have h1 : (W + W * u) * (A + A * u) = (W * A) * (1 + 2 * u + u ^ 2) := by ring
    rw [h1, hWA]
  rw [hexpand_lo] at hprod_ge
  rw [hexpand_hi] at hprod_le
  have hS_nonneg : (0 : ℚ) ≤ (S : ℚ) := by exact_mod_cast le_of_lt hS
  have hround : (S : ℚ) * (1 - 2 * u + u ^ 2) - (S : ℚ) * (1 + 2 * u + u ^ 2) * u ≤
      pymulIntFloat img.width (scaleRatio img S) := by
    rw [pymulIntFloat, qmul_eq, ← hd]
    obtain ⟨h1, -⟩ := roundQ_err_of_nonneg hprod_nonneg
    have hmul_le : roundQ (natToQ d) * scaleRatio img S * u ≤
        (S : ℚ) * (1 + 2 * u + u ^ 2) * u :=
      mul_le_mul_of_nonneg_right hprod_le (le_of_lt hu_pos)
    linarith
  have hfinal : (S : ℚ) - 1 <
      (S : ℚ) * (1 - 2 * u + u ^ 2) - (S : ℚ) * (1 + 2 * u + u ^ 2) * u := by
    have hSle : (S : ℚ) ≤ 1125899906842624 := by exact_mod_cast hS2
    have herr : (S : ℚ) * (3 * u + u ^ 3) ≤
        1125899906842624 * (3 * u + u ^ 3) := by
      apply mul_le_mul_of_nonneg_right hSle
      positivity
    have hnum : (1125899906842624 : ℚ) * (3 * u + u ^ 3) < 1 := by
      rw [hu_val]
      norm_num
    nlinarith [herr, hnum]
  linarith

theorem new_width_eq_height_of_square {img : PImage} {S : ℤ}
    (hsq : img.width = img.height) :
    new_width img S = new_height img S := by
  rw [new_width, new_height, hsq]

theorem pymulIntFloat_mono_right {d : ℕ} {a b : ℚ} (h : a ≤ b) :
    pymulIntFloat d a ≤ pymulIntFloat d b := by
  rw [pymulIntFloat, pymulIntFloat, qmul_eq, qmul_eq]
  apply roundQ_mono
  apply mul_le_mul_of_nonneg_left h
  rw [natToQ_eq]
  exact roundQ_nonneg (by positivity)

theorem new_width_mono {img : PImage} {S T : ℤ} (hST : S ≤ T) :
    new_width img S ≤ new_width img T := by
  rw [new_width, new_width]
  exact pytrunc_mono (pymulIntFloat_mono_right (scaleRatio_mono hST))

theorem new_height_mono {img : PImage} {S T : ℤ} (hST : S ≤ T) :
    new_height img S ≤ new_height img T := by
  rw [new_height, new_height]
  exact pytrunc_mono (pymulIntFloat_mono_right (scaleRatio_mono hST))

/-! ### Success and failure of `resize_with_padding` -/

theorem resize_err_zero {k : ResampleK} {img : PImage} {S : ℤ}
    (h : img.width = 0 ∨ img.height = 0) :
    resize_with_padding k img S = .error .zeroDivisionError := by
  simp only [resize_with_padding, convertRGBA]
  rw [if_pos h]

theorem resize_err_dim {k : ResampleK} {img : PImage} {S : ℤ}
    (hw : 1 ≤ img.width) (hh : 1 ≤ img.height)
    (h : new_width img S < 1 ∨ new_height img S < 1) :
    resize_with_padding k img S = .error .valueError := by
  simp only [resize_with_padding, convertRGBA, pilResize]
  rw [if_neg (by omega), if_pos h]

theorem resize_ok_val {k : ResampleK} {img : PImage} {S : ℤ}
    (hw : 1 ≤ img.width) (hh : 1 ≤ img.height)
    (hnw : 1 ≤ new_width img S) (hnh : 1 ≤ new_height img S) :
    resize_with_padding k img S =
      .ok (pilPaste (pilNew S.toNat S.toNat ⟨0, 0, 0, 0⟩)
        { width := (new_width img S).toNat,
          height := (new_height img S).toNat,
          pix := k img (new_width img S).toNat (new_height img S).toNat }
        (x_offset img S) (y_offset img S)) := by
  simp only [resize_with_padding, convertRGBA, pilResize]
  rw [if_neg (by omega), if_neg (by omega)]

theorem resize_ok_iff (k : ResampleK) (img : PImage) (S : ℤ) :
    renderOk (resize_with_padding k img S) = true ↔
      1 ≤ img.width ∧ 1 ≤ img.height ∧
        1 ≤ new_width img S ∧ 1 ≤ new_height img S := by
  constructor
  · intro h
    by_cases h0 : img.width = 0 ∨ img.height = 0
    · rw [resize_err_zero h0] at h
      simp [renderOk] at h
    · by_cases h1 : new_width img S < 1 ∨ new_height img S < 1
      · rw [resize_err_dim (by omega) (by omega) h1] at h
        simp [renderOk] at h
      · omega
  · intro ⟨hw, hh, hnw, hnh⟩
    rw [resize_ok_val hw hh hnw hnh]
    rfl

/-- A successful render forces a positive target size. -/
theorem resize_ok_S_pos {k : ResampleK} {img : PImage} {S : ℤ}
    (h : renderOk (resize_with_padding k img S) = true) : 0 < S := by
  obtain ⟨hw, hh, hnw, -⟩ := (resize_ok_iff k img S).mp h
  by_contra hc
  have := @new_width_nonpos img S (by omega)
  omega

/-! ### Filesystem lemmas -/

theorem lookup_setFile_self :
    ∀ (l : List (String × PImage)) (p : String) (v : PImage),
      (setFile l p v).lookup p = some v := by
  intro l p v
  induction l with
  | nil =>
    rw [setFile, List.lookup_cons, show (p == p) = true by simp]
  | cons a l ih =>
    obtain ⟨q, w⟩ := a
    rw [setFile]
    by_cases h : q = p
    · rw [if_pos h, List.lookup_cons, show (p == p) = true by simp]
    · rw [if_neg h, List.lookup_cons,
        show (p == q) = false by simp; exact fun hc => h hc.symm]
      exact ih

theorem lookup_setFile_ne :
    ∀ (l : List (String × PImage)) {p q : String} (v : PImage),
      q ≠ p → (setFile l p v).lookup q = l.lookup q := by
  intro l p q v hqp
  induction l with
  | nil =>
    rw [setFile, List.lookup_cons, show (q == p) = false by simp; exact hqp]
  | cons a l ih =>
    obtain ⟨r, w⟩ := a
    rw [setFile]
    by_cases h : r = p
    · subst h
      rw [if_pos rfl, List.lookup_cons, List.lookup_cons,
        show (q == r) = false by simp; exact hqp]
    · rw [if_neg h, List.lookup_cons, List.lookup_cons]
      cases hrq : (q == r) with
      | false => exact ih
      | true => rfl

theorem isSome_lookup_setFile
    (l : List (String × PImage)) (p q : String) (v : PImage)
    (h : (l.lookup q).isSome = true) :
    ((setFile l p v).lookup q).isSome = true := by
  by_cases hqp : q = p
  · rw [hqp, lookup_setFile_self]
    rfl
  · rw [lookup_setFile_ne l v hqp]
    exact h

/-! ### Loop lemmas -/

theorem genLoop_dirs (k : ResampleK) (img : PImage) (out_dir : String) :
    ∀ (l : List ℤ) (fs : FS), ((genLoop k img out_dir l fs).2).dirs = fs.dirs := by
  intro l
  induction l with
  | nil => intro fs; rfl
  | cons S rest ih =>
    intro fs
    rw [genLoop]
    cases hres : resize_with_padding k img S with
    | error e => rfl
    | ok sq => exact ih _

theorem genLoop_outs_frame (k : ResampleK) (img : PImage) (out_dir : String) :
    ∀ (l : List ℤ) (fs : FS) (p : String),
      (∀ S ∈ l, p ≠ iconPath out_dir S) →
      ((genLoop k img out_dir l fs).2.outs.lookup p) = fs.outs.lookup p := by
  intro l
  induction l with
  | nil => intro fs p h; rfl
  | cons S rest ih =>
    intro fs p h
    rw [genLoop]
    cases hres : resize_with_padding k img S with
    | error e => rfl
    | ok sq =>
      rw [ih _ p (fun T hT => h T (List.mem_cons_of_mem _ hT))]
      exact lookup_setFile_ne _ _ (h S (List.mem_cons_self _ _))

theorem genLoop_err_head {k : ResampleK} {img : PImage} {out_dir : String}
    {S : ℤ} {rest : List ℤ} {fs : FS}
    (h : renderOk (resize_with_padding k img S) = false) :
    genLoop k img out_dir (S :: rest) fs = (1, fs) := by
  rw [genLoop]
  cases hres : resize_with_padding k img S with
  | error e => rfl
  | ok sq =>
    rw [hres, renderOk] at h
    exact absurd h (by simp)

theorem genLoop_ok_all (k : ResampleK) (img : PImage) (out_dir : String) :
    ∀ (l : List ℤ) (fs : FS),
      (∀ S ∈ l, renderOk (resize_with_padding k img S) = true) →
      (genLoop k img out_dir l fs).1 = 0 ∧
        (∀ p, (fs.outs.lookup p).isSome = true →
            ((genLoop k img out_dir l fs).2.outs.lookup p).isSome = true) ∧
        ∀ S ∈ l,
          ((genLoop k img out_dir l fs).2.outs.lookup
            (iconPath out_dir S)).isSome = true := by
  intro l
  induction l with
  | nil =>
    intro fs h
    refine ⟨rfl, fun p hp => hp, ?_⟩
    intro S hS
    exact absurd hS (List.not_mem_nil _)
  | cons S rest ih =>
    intro fs h
    have hS := h S (List.mem_cons_self _ _)
    cases hres : resize_with_padding k img S with
    | error e =>
      rw [hres, renderOk] at hS
      exact absurd hS (by simp)
    | ok sq =>
      rw [genLoop, hres]
      set fs' : FS := { fs with outs := setFile fs.outs (iconPath out_dir S) sq }
        with hfs'
      obtain ⟨h1, h2, h3⟩ :=
        ih fs' (fun T hT => h T (List.mem_cons_of_mem _ hT))
      refine ⟨h1, ?_, ?_⟩
      · intro p hp
        exact h2 p (isSome_lookup_setFile _ _ _ _ hp)
      · intro T hT
        rcases List.mem_cons.mp hT with hTS | hTrest
        · subst hTS
          apply h2
          rw [hfs']
          show ((setFile fs.outs (iconPath out_dir T) sq).lookup
            (iconPath out_dir T)).isSome = true
          rw [lookup_setFile_self]
          rfl
        · exact h3 T hTrest

theorem genLoop_lookup_val (k : ResampleK) (img : PImage) (out_dir : String) :
    ∀ (l : List ℤ) (fs : FS),
      (∀ S ∈ l, renderOk (resize_with_padding k img S) = true) →
      l.Pairwise (fun S T => iconPath out_dir S ≠ iconPath out_dir T) →
      ∀ S ∈ l,
        ((genLoop k img out_dir l fs).2.outs.lookup (iconPath out_dir S)) =
          (resize_with_padding k img S).toOption := by
  intro l
  induction l with
  | nil =>
    intro fs h hp S hS
    exact absurd hS (List.not_mem_nil _)
  | cons S rest ih =>
    intro fs h hp T hT
    have hS := h S (List.mem_cons_self _ _)
    cases hres : resize_with_padding k img S with
    | error e =>
      rw [hres, renderOk] at hS
      exact absurd hS (by simp)
    | ok sq =>
      rw [genLoop, hres]
      obtain ⟨hhead, htail⟩ := List.pairwise_cons.mp hp
      rcases List.mem_cons.mp hT with hTS | hTrest
      · subst hTS
        rw [genLoop_outs_frame k img out_dir rest _ _
          (fun R hR => hhead R hR)]
        show ((setFile fs.outs (iconPath out_dir T) sq).lookup
          (iconPath out_dir T)) = _
        rw [lookup_setFile_self, hres]
        rfl
      · exact ih _ (fun R hR => h R (List.mem_cons_of_mem _ hR)) htail T hTrest

/-! ### Output file names -/

theorem string_append_left_cancel {s a b : String} (h : s ++ a = s ++ b) :
    a = b := by
  have hd : (s ++ a).data = (s ++ b).data := by rw [h]
  rw [String.data_append, String.data_append] at hd
  have hab : a.data = b.data := List.append_cancel_left hd
  exact congrArg String.mk hab

theorem iconPath_pairwise (out_dir : String) :
    SIZES.Pairwise (fun S T => iconPath out_dir S ≠ iconPath out_dir T) := by
  have hname : SIZES.Pairwise (fun S T => iconName S ≠ iconName T) := by
    decide
  apply hname.imp
  intro S T hST h
  exact hST (string_append_left_cancel h)

/-- Membership in the fixed size list pins the range of the target size. -/
theorem SIZES_range {S : ℤ} (hS : S ∈ SIZES) :
    0 < S ∧ 16 ≤ S ∧ S ≤ 1125899906842624 := by
  simp [SIZES] at hS
  rcases hS with rfl | rfl | rfl | rfl | rfl | rfl <;> norm_num

/-- If rendering succeeds at size 16 it succeeds at every size of the list:
the scaled dimensions are monotone in the target size, so they stay at
least 1. -/
theorem all_sizes_ok {k : ResampleK} {img : PImage}
    (h16 : renderOk (resize_with_padding k img 16) = true) :
    ∀ S ∈ SIZES, renderOk (resize_with_padding k img S) = true := by
  obtain ⟨hw, hh, hnw, hnh⟩ := (resize_ok_iff k img 16).mp h16
  intro S hS
  have h16S : (16 : ℤ) ≤ S := (SIZES_range hS).2.1
  rw [resize_ok_iff]
  have h1 := @new_width_mono img 16 S h16S
  have h2 := @new_height_mono img 16 S h16S
  exact ⟨hw, hh, by omega, by omega⟩

/-! ## The claims -/

/-- C1, counterexample: a 100 × 1 source (both dimensions positive) at
target size 16 ∈ SIZES does not complete: the scaled height truncates to
0 and `resize` raises `ValueError`, so failing inputs are not limited to
non-positive dimensions. -/
theorem claim_C1_counterexample :
    renderErr (resize_with_padding constK (mkImg 100 1) 16) =
        some PILError.valueError ∧
      1 ≤ (mkImg 100 1).width ∧ 1 ≤ (mkImg 100 1).height ∧ (16 : ℤ) ∈ SIZES := by
  refine ⟨by decide, by decide, by decide, by decide⟩

/-- C1 (amended): for positive source dimensions and a target size from
the fixed list, `resize_with_padding` completes without error exactly
when both truncated scaled dimensions are at least 1; when a scaled
dimension truncates to 0 (extreme aspect ratios) the library raises
`ValueError`. -/
theorem claim_C1_success_iff (k : ResampleK) (img : PImage) (S : ℤ)
    (hw : 1 ≤ img.width) (hh : 1 ≤ img.height) (hS : S ∈ SIZES) :
    renderOk (resize_with_padding k img S) = true ↔
      1 ≤ new_width img S ∧ 1 ≤ new_height img S := by
  rw [resize_ok_iff]
  constructor
  · intro h
    exact ⟨h.2.2.1, h.2.2.2⟩
  · intro h
    exact ⟨hw, hh, h.1, h.2⟩

/-- C1 witness: the amended equivalence at the concrete failing input. -/
theorem claim_C1_success_iff_witness :
    renderOk (resize_with_padding constK (mkImg 100 1) 16) = true ↔
      1 ≤ new_width (mkImg 100 1) 16 ∧ 1 ≤ new_height (mkImg 100 1) 16 :=
  claim_C1_success_iff constK (mkImg 100 1) 16 (by decide) (by decide) (by decide)

/-- C2: whenever `resize_with_padding` returns an image for a target size
of the fixed list, that image is exactly `S × S`. -/
theorem claim_C2_result_square (k : ResampleK) (img : PImage) (S : ℤ)
    (out : PImage) (hS : S ∈ SIZES)
    (h : resize_with_padding k img S = .ok out) :
    (out.width : ℤ) = S ∧ (out.height : ℤ) = S := by
  have hok : renderOk (resize_with_padding k img S) = true := by
    rw [h]
    rfl
  obtain ⟨hw, hh, hnw, hnh⟩ := (resize_ok_iff k img S).mp hok
  have hSpos : 0 < S := (SIZES_range hS).1
  rw [resize_ok_val hw hh hnw hnh] at h
  have hout := Except.ok.inj h
  rw [← hout]
  constructor <;> (show ((S.toNat : ℤ) = S); omega)

/-- C2 witness: a 2 × 1 source rendered at 16 gives a 16 × 16 icon. -/
theorem claim_C2_result_square_witness :
    (resize_with_padding constK (mkImg 2 1) 16).map
      (fun o => ((o.width : ℤ), (o.height : ℤ))) = .ok (16, 16) := by
  cases hres : resize_with_padding constK (mkImg 2 1) 16 with
  | error e =>
    have hok : renderOk (resize_with_padding constK (mkImg 2 1) 16) = true := by
      decide
    rw [hres] at hok
    exact absurd hok (by simp [renderOk])
  | ok out =>
    obtain ⟨h1, h2⟩ :=
      claim_C2_result_square constK (mkImg 2 1) 16 out (by decide) hres
    simp [Except.map, h1, h2]

/-- C3: the ratio is the float minimum of the two size/dimension
divisions, the scaled dimensions are its truncated (toward zero)
products with the source dimensions, and both stay at most the target
size, even through the three floating-point roundings. -/
theorem claim_C3_ratio_and_fit (img : PImage) (S : ℤ)
    (hw : 1 ≤ img.width) (hh : 1 ≤ img.height) (hS : S ∈ SIZES) :
    scaleRatio img S = min (pydiv S img.width) (pydiv S img.height) ∧
      new_width img S = pytrunc (pymulIntFloat img.width (scaleRatio img S)) ∧
      new_height img S = pytrunc (pymulIntFloat img.height (scaleRatio img S)) ∧
      new_width img S ≤ S ∧ new_height img S ≤ S := by
  obtain ⟨h1, -, h2⟩ := SIZES_range hS
  exact ⟨rfl, rfl, rfl, new_width_le hw hh h1 h2, new_height_le hw hh h1 h2⟩

/-- C3 witness: the formula and the bounds at a concrete 3 × 2 source and
size 16. -/
theorem claim_C3_ratio_and_fit_witness :
    scaleRatio (mkImg 3 2) 16 =
        min (pydiv 16 (mkImg 3 2).width) (pydiv 16 (mkImg 3 2).height) ∧
      new_width (mkImg 3 2) 16 =
        pytrunc (pymulIntFloat (mkImg 3 2).width (scaleRatio (mkImg 3 2) 16)) ∧
      new_height (mkImg 3 2) 16 =
        pytrunc (pymulIntFloat (mkImg 3 2).height (scaleRatio (mkImg 3 2) 16)) ∧
      new_width (mkImg 3 2) 16 ≤ 16 ∧ new_height (mkImg 3 2) 16 ≤ 16 :=
  claim_C3_ratio_and_fit (mkImg 3 2) 16 (by decide) (by decide) (by decide)

/-- C4: on a successful render with a size from the fixed list, the
content is placed at the floor-halved offsets, and on each axis the two
margins (offset, and size minus scaled dimension minus offset) differ by
at most one pixel. -/
theorem claim_C4_centered (k : ResampleK) (img : PImage) (S : ℤ)
    (hS : S ∈ SIZES)
    (hok : renderOk (resize_with_padding k img S) = true) :
    x_offset img S = Int.ediv (S - new_width img S) 2 ∧
      y_offset img S = Int.ediv (S - new_height img S) 2 ∧
      0 ≤ (S - new_width img S - x_offset img S) - x_offset img S ∧
      (S - new_width img S - x_offset img S) - x_offset img S ≤ 1 ∧
      0 ≤ (S - new_height img S - y_offset img S) - y_offset img S ∧
      (S - new_height img S - y_offset img S) - y_offset img S ≤ 1 := by
  have hx : x_offset img S = (S - new_width img S) / 2 := rfl
  have hy : y_offset img S = (S - new_height img S) / 2 := rfl
  refine ⟨rfl, rfl, ?_, ?_, ?_, ?_⟩ <;> simp only [hx, hy] <;> omega

/-- C4 witness: the 100 × 50 source at 64 (offsets 0 and 16, margins 0/0
and 16/16). -/
theorem claim_C4_centered_witness :
    x_offset (mkImg 100 50) 64 =
        Int.ediv (64 - new_width (mkImg 100 50) 64) 2 ∧
      y_offset (mkImg 100 50) 64 =
        Int.ediv (64 - new_height (mkImg 100 50) 64) 2 ∧
      0 ≤ (64 - new_width (mkImg 100 50) 64 - x_offset (mkImg 100 50) 64) -
          x_offset (mkImg 100 50) 64 ∧
      (64 - new_width (mkImg 100 50) 64 - x_offset (mkImg 100 50) 64) -
          x_offset (mkImg 100 50) 64 ≤ 1 ∧
      0 ≤ (64 - new_height (mkImg 100 50) 64 - y_offset (mkImg 100 50) 64) -
          y_offset (mkImg 100 50) 64 ∧
      (64 - new_height (mkImg 100 50) 64 - y_offset (mkImg 100 50) 64) -
          y_offset (mkImg 100 50) 64 ≤ 1 :=
  claim_C4_centered constK (mkImg 100 50) 64 (by decide) (by decide)

/-- C5: every pixel of a rendered icon lying outside the pasted content
rectangle `[xOffset, xOffset + scaledWidth) × [yOffset, yOffset +
scaledHeight)` is fully transparent (alpha 0): the canvas is allocated
fully transparent and `paste` leaves pixels outside the box
untouched. -/
theorem claim_C5_padding_transparent (k : ResampleK) (img : PImage)
    (S : ℤ) (out : PImage) (x y : ℕ)
    (h : resize_with_padding k img S = .ok out)
    (hx : x < out.width) (hy : y < out.height)
    (houtside : ¬(x_offset img S ≤ (x : ℤ) ∧
        (x : ℤ) < x_offset img S + new_width img S ∧
        y_offset img S ≤ (y : ℤ) ∧
        (y : ℤ) < y_offset img S + new_height img S)) :
    (out.pix x y).a = 0 := by
  have hok : renderOk (resize_with_padding k img S) = true := by
    rw [h]
    rfl
  obtain ⟨hw, hh, hnw, hnh⟩ := (resize_ok_iff k img S).mp hok
  rw [resize_ok_val hw hh hnw hnh] at h
  have hout := Except.ok.inj h
  rw [← hout]
  simp only [pilPaste, pilNew]
  rw [if_neg]
  rw [Int.toNat_of_nonneg (by omega : (0:ℤ) ≤ new_width img S),
    Int.toNat_of_nonneg (by omega : (0:ℤ) ≤ new_height img S)]
  exact houtside

set_option maxRecDepth 4000 in
/-- C5 witness: the spec's end-to-end scenario.  A 100 × 50 opaque source
at 64 scales to 64 × 32, placed at x-offset 0 and y-offset 16, and the
padding rows (0–15 and 48–63, probed at their corners) are fully
transparent. -/
theorem claim_C5_padding_transparent_witness :
    new_width (mkImg 100 50) 64 = 64 ∧
      new_height (mkImg 100 50) 64 = 32 ∧
      x_offset (mkImg 100 50) 64 = 0 ∧
      y_offset (mkImg 100 50) 64 = 16 ∧
      (resize_with_padding constK (mkImg 100 50) 64).map
        (fun o => ((o.pix 0 0).a, (o.pix 63 15).a, (o.pix 0 48).a,
          (o.pix 63 63).a)) = .ok (0, 0, 0, 0) := by
  refine ⟨by decide, by decide, by decide, by decide, ?_⟩
  cases hres : resize_with_padding constK (mkImg 100 50) 64 with
  | error e =>
    have hok : renderOk (resize_with_padding constK (mkImg 100 50) 64) = true := by
      decide
    rw [hres] at hok
    exact absurd hok (by simp [renderOk])
  | ok out =>
    have hres2 := hres
    rw [resize_ok_val (by decide) (by decide) (by decide) (by decide)] at hres2
    have hout := Except.ok.inj hres2
    have hw64 : out.width = 64 := by rw [← hout]; rfl
    have hh64 : out.height = 64 := by rw [← hout]; rfl
    have hp1 := claim_C5_padding_transparent constK (mkImg 100 50) 64 out 0 0
      hres (by omega) (by omega) (by decide)
    have hp2 := claim_C5_padding_transparent constK (mkImg 100 50) 64 out 63 15
      hres (by omega) (by omega) (by decide)
    have hp3 := claim_C5_padding_transparent constK (mkImg 100 50) 64 out 0 48
      hres (by omega) (by omega) (by decide)
    have hp4 := claim_C5_padding_transparent constK (mkImg 100 50) 64 out 63 63
      hres (by omega) (by omega) (by decide)
    simp [Except.map, hp1, hp2, hp3, hp4]

set_option maxRecDepth 4000 in
/-- C6, counterexample: a 49 × 49 square source at target size 16 scales
to 15 × 15, not 16 × 16 — the float round-trip `int(49 * (16 / 49))`
evaluates to 15 — and the rendered icon has a transparent padding pixel,
so the scaled content does not always fill the canvas. -/
theorem claim_C6_counterexample :
    new_width (mkImg 49 49) 16 = 15 ∧
      new_height (mkImg 49 49) 16 = 15 ∧
      pixA (resize_with_padding constK (mkImg 49 49) 16) 15 8 = some 0 := by
  refine ⟨by decide, by decide, by decide⟩

/-- C6 (amended): for a square source the two scaled dimensions are
equal and lie in `{S - 1, S}`: the float round-trip can lose at most one
pixel, and does lose one for some inputs (e.g. 49 × 49 at size 16). -/
theorem claim_C6_square_content (img : PImage) (S : ℤ)
    (hsq : img.width = img.height) (hw : 1 ≤ img.width) (hS : S ∈ SIZES) :
    new_width img S = new_height img S ∧
      S - 1 ≤ new_width img S ∧ new_width img S ≤ S := by
  obtain ⟨h1, -, h2⟩ := SIZES_range hS
  have hh : 1 ≤ img.height := hsq ▸ hw
  refine ⟨new_width_eq_height_of_square hsq, ?_, new_width_le hw hh h1 h2⟩
  have hgt := pymul_ratio_gt_square hsq hw h1 h2
  obtain ⟨-, hnn⟩ := pymul_ratio_lt hw hw hh h1 h2 (min_le_left _ _)
  rw [new_width]
  apply le_pytrunc_of_le hnn
  push_cast
  linarith

/-- C6 witness: the amended statement at a concrete 7 × 7 source and
size 32 (where the content does fill the canvas). -/
theorem claim_C6_square_content_witness :
    new_width (mkImg 7 7) 32 = new_height (mkImg 7 7) 32 ∧
      (32 : ℤ) - 1 ≤ new_width (mkImg 7 7) 32 ∧ new_width (mkImg 7 7) 32 ≤ 32 :=
  claim_C6_square_content (mkImg 7 7) 32 (by decide) (by decide) (by decide)

/-- C7: a missing source path makes the program exit with status 1
immediately: no directory is created and no file is written (the
filesystem state is returned unchanged). -/
theorem claim_C7_missing_source (k : ResampleK) (fs : FS)
    (src out_dir : String) (h : pathExists fs src = false) :
    generate_icons k fs src out_dir = (1, fs) := by
  rw [generate_icons, if_pos h]

/-- C7 witness: `nope.png` on an empty filesystem. -/
theorem claim_C7_missing_source_witness :
    generate_icons constK ⟨[], [], []⟩ "nope.png" "icons" = (1, ⟨[], [], []⟩) :=
  claim_C7_missing_source constK ⟨[], [], []⟩ "nope.png" "icons" rfl

/-- C8, counterexample: at target size 0 the code fails with the
library's `ValueError` raised by `resize`, not with a distinct
`InvalidConfiguration` error — no such defensive check exists in the
code. -/
theorem claim_C8_counterexample :
    renderErr (resize_with_padding constK (mkImg 1 1) 0) =
        some PILError.valueError ∧
      PILError.valueError ≠ PILError.invalidConfiguration := by
  refine ⟨by decide, by decide⟩

/-- C8 (amended): for a non-positive target size the render always
fails, but with the `ValueError` coming from `resize` (the scaled
dimensions are non-positive), not with a distinct configuration
error. -/
theorem claim_C8_nonpositive_size (k : ResampleK) (img : PImage) (S : ℤ)
    (hw : 1 ≤ img.width) (hh : 1 ≤ img.height) (hS : S ≤ 0) :
    resize_with_padding k img S = .error PILError.valueError := by
  apply resize_err_dim hw hh
  left
  have := @new_width_nonpos img S hS
  omega

/-- C8 witness: the amended failure at a concrete 1 × 1 source and
size 0. -/
theorem claim_C8_nonpositive_size_witness :
    resize_with_padding constK (mkImg 1 1) 0 = .error PILError.valueError :=
  claim_C8_nonpositive_size constK (mkImg 1 1) 0 (by decide) (by decide)
    (by decide)

/-- Bool negation helper for render success. -/
theorem renderOk_false {k : ResampleK} {img : PImage} {S : ℤ}
    (h : ¬ renderOk (resize_with_padding k img S) = true) :
    renderOk (resize_with_padding k img S) = false := by
  revert h
  cases renderOk (resize_with_padding k img S) <;> simp

/-- C9: a run is all-or-nothing with respect to icon files.  For every
starting filesystem state and arguments, either the program exits with
status 0 and all six `icon-<S>.png` files are present in the output
directory, or it exits with status 1 and the set of written files is
exactly what it was before the run — no proper subset of the six icons
is ever persisted.  (A failing run fails before any save: at the
existence check, at decode, or at the first loop iteration, because the
scaled dimensions are monotone in the target size and the sizes are
processed in increasing order.) -/
theorem claim_C9_all_or_nothing (k : ResampleK) (fs : FS)
    (src out_dir : String) :
    ((generate_icons k fs src out_dir).1 = 0 ∧
        allIconsPresent (generate_icons k fs src out_dir).2.outs out_dir = true) ∨
      ((generate_icons k fs src out_dir).1 = 1 ∧
        (generate_icons k fs src out_dir).2.outs = fs.outs) := by
  by_cases hex : pathExists fs src = false
  · right
    rw [generate_icons, if_pos hex]
    exact ⟨rfl, rfl⟩
  · cases hopen : (fs.imgs.lookup src).join with
    | none =>
      right
      rw [generate_icons, if_neg hex, hopen]
      exact ⟨rfl, rfl⟩
    | some img =>
      have hgen : generate_icons k fs src out_dir =
          genLoop k img out_dir SIZES (makedirs fs out_dir) := by
        rw [generate_icons, if_neg hex, hopen]
      rw [hgen]
      by_cases hok16 : renderOk (resize_with_padding k img 16) = true
      · left
        obtain ⟨h1, h2, h3⟩ :=
          genLoop_ok_all k img out_dir SIZES (makedirs fs out_dir)
            (all_sizes_ok hok16)
        refine ⟨h1, ?_⟩
        rw [allIconsPresent, List.all_eq_true]
        intro S hS
        simpa using h3 S hS
      · right
        have hfail := renderOk_false hok16
        rw [show SIZES = 16 :: [32, 48, 64, 128, 256] from rfl,
          genLoop_err_head hfail]
        exact ⟨rfl, rfl⟩

/-- C10: `generate_icons` silently replaces pre-existing state.  When the
source decodes, (a) an existing output directory is reused without error
and a missing one is created; (b) a file in the output directory whose
name is not one of the six icon names is left exactly as it was; (c) on
a successful run each `icon-<S>.png` holds the freshly rendered icon,
overwriting without warning whatever file of that name existed
before. -/
theorem claim_C10_silent_replace (k : ResampleK) (fs : FS)
    (src out_dir : String) (img : PImage) (S : ℤ) (p : String)
    (hsrc : fs.imgs.lookup src = some (some img))
    (hS : S ∈ SIZES)
    (hp : ∀ T ∈ SIZES, p ≠ iconPath out_dir T) :
    ((generate_icons k fs src out_dir).2.dirs =
        if out_dir ∈ fs.dirs then fs.dirs else out_dir :: fs.dirs) ∧
      ((generate_icons k fs src out_dir).2.outs.lookup p = fs.outs.lookup p) ∧
      ((generate_icons k fs src out_dir).1 = 0 →
        (generate_icons k fs src out_dir).2.outs.lookup (iconPath out_dir S) =
          (resize_with_padding k img S).toOption) := by
  have hex : ¬ pathExists fs src = false := by
    rw [pathExists, hsrc]
    simp
  have hgen : generate_icons k fs src out_dir =
      genLoop k img out_dir SIZES (makedirs fs out_dir) := by
    rw [generate_icons, if_neg hex, hsrc]
    rfl
  rw [hgen]
  refine ⟨?_, ?_, ?_⟩
  · rw [genLoop_dirs]
    rfl
  · rw [genLoop_outs_frame k img out_dir SIZES _ p hp]
    rfl
  · intro hzero
    by_cases hok16 : renderOk (resize_with_padding k img 16) = true
    · exact genLoop_lookup_val k img out_dir SIZES _ (all_sizes_ok hok16)
        (iconPath_pairwise out_dir) S hS
    · exfalso
      have hfail := renderOk_false hok16
      rw [show SIZES = 16 :: [32, 48, 64, 128, 256] from rfl,
        genLoop_err_head hfail] at hzero
      exact absurd hzero (by norm_num)

/-- C10 witness: on a filesystem where `icons/` already exists with an
old `icon-16.png` and a `readme.txt`, the run reuses the directory,
leaves `readme.txt` exactly as it was, and on success `icon-16.png`
holds the freshly rendered icon. -/
theorem claim_C10_silent_replace_witness :
    ((generate_icons constK fsPre "logo.png" "icons").2.dirs =
        if "icons" ∈ fsPre.dirs then fsPre.dirs else "icons" :: fsPre.dirs) ∧
      ((generate_icons constK fsPre "logo.png" "icons").2.outs.lookup
          "icons/readme.txt" = fsPre.outs.lookup "icons/readme.txt") ∧
      ((generate_icons constK fsPre "logo.png" "icons").1 = 0 →
        (generate_icons constK fsPre "logo.png" "icons").2.outs.lookup
            (iconPath "icons" 16) =
          (resize_with_padding constK (mkImg 2 1) 16).toOption) :=
  claim_C10_silent_replace constK fsPre "logo.png" "icons" (mkImg 2 1) 16
    "icons/readme.txt" rfl (by decide) (by decide)
